import Mathlib

/-!
Verification of the annotation-tag extraction and command-model assembly
engine of easy-cli (src/builder.rs, src/model.rs, src/utils.rs).

The Rust code is shallowly embedded: nom parsers over `&str` become Lean
functions over `List Char`.  The scanner-level parsers in builder.rs use
`streaming` nom combinators wired together with `preceded`, `terminated`,
`pair`, `flat_map`, `value` and `map` only; none of these distinguishes
`Err::Error` from `Err::Incomplete`, and `nom::combinator::iterator`
stops iterating on either (the `FinishIncomplete` impl then turns both an
`Incomplete` result of `finish` and a clean stop into `Ok`), so at scanner
level both failure kinds are merged into a single `none` outcome.
The detail parsers (`arg_details`, `opt_details`) run on an extracted
one-line `String` with `complete` combinators plus `opt`; there the only
reachable non-`Error` failure is the `Incomplete` of the streaming
`is_not(">")` inside `arg_type`, which aborts `arg_details` as a whole;
it is modelled by `argDetails` returning `none`.
-/

namespace EasyCli

/-- `ArgType` from model.rs. -/
inductive ArgType where
  | unknown : ArgType
  | path : ArgType
  | file : ArgType
  | dir : ArgType
deriving DecidableEq, Repr

/-- `CommandArg` from model.rs. -/
structure CommandArg where
  name : String
  optional : Bool
  varArg : Bool
  argType : ArgType
  description : Option String
deriving DecidableEq, Repr

/-- `CommandOption` from model.rs. -/
structure CommandOption where
  name : String
  short : Option Char
  hasParam : Bool
  description : Option String
deriving DecidableEq, Repr

/-- `DocTag` from builder.rs (`NameTag`, `SubTag`, `AboutTag` flattened into
the constructors; `SubTag.path` is the reserved, always-`None` field). -/
inductive DocTag where
  | ignore : DocTag
  | name : String → DocTag
  | sub : String → Option String → DocTag
  | about : String → DocTag
  | arg : CommandArg → DocTag
  | opt : CommandOption → DocTag
deriving DecidableEq, Repr

/-- `EmbeddedCommand` from model.rs (its `sub_commands` field is always
empty, so it is omitted). -/
structure EmbeddedCommand where
  name : String
  description : Option String
  options : List CommandOption
  args : List CommandArg
deriving DecidableEq, Repr

/-- `ScriptCommand` from model.rs.  The boxed `dyn Command` children built
by `build_script_command` are always `EmbeddedCommand`s.  The `PathBuf`
is modelled as a `String`. -/
structure ScriptCommand where
  name : String
  description : Option String
  path : String
  options : List CommandOption
  args : List CommandArg
  subCommands : List EmbeddedCommand
deriving DecidableEq, Repr

/-! ## Character classes used by the nom combinators -/

/-- The characters accepted by nom `multispace0`. -/
def isMultispace (c : Char) : Bool :=
  c = ' ' || c = '\t' || c = '\r' || c = '\n'

/-- The characters accepted by nom `space0`. -/
def isSpaceTab (c : Char) : Bool :=
  c = ' ' || c = '\t'

/-- The stop set of `identifier` in builder.rs: `is_not(" \t\r\n-")`. -/
def isIdentStop (c : Char) : Bool :=
  c = ' ' || c = '\t' || c = '\r' || c = '\n' || c = '-'

/-! ## Streaming combinators (scanner level)

Each returns `none` when the Rust parser would return `Err` of any kind
(`Error`, `Failure` or `Incomplete`); see the header comment. -/

/-- `nom::character::streaming::multispace0`: consumes multispace
characters; `Incomplete` when it reaches the end of input. -/
def multispace0S : List Char → Option (List Char)
  | [] => none
  | c :: cs => if isMultispace c then multispace0S cs else some (c :: cs)

/-- `nom::character::streaming::space0`: consumes spaces and tabs;
`Incomplete` when it reaches the end of input. -/
def space0S : List Char → Option (List Char)
  | [] => none
  | c :: cs => if isSpaceTab c then space0S cs else some (c :: cs)

/-- `nom::character::streaming::not_line_ending`: the consumed text before
the first `\r` or `\n`, and the rest beginning with that terminator.
`Incomplete` when no terminator exists, `Error` on a `\r` not followed
by `\n` (both `none` here). -/
def notLineEndingS : List Char → Option (List Char × List Char)
  | [] => none
  | c :: cs =>
    if c = '\n' then some ([], c :: cs)
    else if c = '\r' then
      if cs.head? = some '\n' then some ([], c :: cs) else none
    else
      (notLineEndingS cs).map (fun p => (c :: p.1, p.2))

/-- `nom::bytes::streaming::is_not` without the nonempty-match check:
consumed prefix before the first stop character, and the rest.
`Incomplete` (`none`) when no stop character exists in the input. -/
def isNotStreaming (stop : Char → Bool) : List Char → Option (List Char × List Char)
  | [] => none
  | c :: cs =>
    if stop c then some ([], c :: cs)
    else (isNotStreaming stop cs).map (fun p => (c :: p.1, p.2))

/-- `identifier` in builder.rs: `is_not(" \t\r\n-")` (streaming), which
errors on a zero-length match. -/
def identifierS (input : List Char) : Option (List Char × List Char) :=
  match isNotStreaming isIdentStop input with
  | none => none
  | some (out, rest) => if out.isEmpty then none else some (out, rest)

/-! ## Complete combinators (detail-parser level) -/

/-- `nom::character::complete::space0`: never fails. -/
def space0C (input : List Char) : List Char :=
  input.dropWhile isSpaceTab

/-- nom `tag_no_case`: case-insensitive prefix match, returning the rest of
the input after the matched prefix.  (nom lowercases both sides;
`Char.toLower` matches its behavior on the ASCII tags used here.) -/
def tagNoCase : List Char → List Char → Option (List Char)
  | [], rest => some rest
  | _ :: _, [] => none
  | a :: ts, b :: bs => if a.toLower = b.toLower then tagNoCase ts bs else none

/-- `padded_bool` in builder.rs: complete `space0`, then
`tag_no_case("true")` or `tag_no_case("false")`. -/
def paddedBool (input : List Char) : Option (Bool × List Char) :=
  let i := space0C input
  match tagNoCase "true".data i with
  | some rest => some (true, rest)
  | none =>
    match tagNoCase "false".data i with
    | some rest => some (false, rest)
    | none => none

/-- Rust `str::eq_ignore_ascii_case`, used by `ArgType::from`. -/
def eqIgnoreCase : List Char → List Char → Bool
  | [], [] => true
  | a :: as_, b :: bs => a.toLower = b.toLower && eqIgnoreCase as_ bs
  | _, _ => false

/-- `ArgType::from(&str)` in model.rs. -/
def argTypeFrom (s : List Char) : ArgType :=
  if eqIgnoreCase s "path".data then ArgType.path
  else if eqIgnoreCase s "file".data then ArgType.file
  else if eqIgnoreCase s "dir".data then ArgType.dir
  else ArgType.unknown

/-- `arg_type` in builder.rs: complete `space0`, then
`delimited(char('<'), is_not(">"), char('>'))`.  The inner `is_not` is the
imported streaming one, so a `<` never closed before the end of the input
is `Incomplete` (outer `none`); any plain `Error` is later swallowed by
`opt` (`some none`). -/
def argTypeP (input : List Char) : Option (Option (ArgType × List Char)) :=
  match space0C input with
  | [] => some none
  | c :: rest =>
    if c = '<' then
      match isNotStreaming (fun x => x = '>') rest with
      | none => none
      | some (tok, rest2) =>
        if tok.isEmpty then some none
        else
          match rest2 with
          | [] => some none
          | d :: rest3 =>
            if d = '>' then some (some (argTypeFrom tok, rest3)) else some none
    else some none

/-- `none_if_empty` in builder.rs. -/
def noneIfEmpty (rest : List Char) : Option String :=
  if rest.length > 0 then some (String.mk rest) else none

/-- `arg_details` in builder.rs: `opt(padded_bool)`, `opt(arg_type)`, then
complete `space0` and `rest` as the description.  Returns `none` exactly
when `arg_type` signals `Incomplete` (unclosed `<`). -/
def argDetails (name : List Char) (varArg : Bool) (input : List Char) : Option DocTag :=
  let step1 : Option Bool × List Char :=
    match paddedBool input with
    | some (b, rest) => (some b, rest)
    | none => (none, input)
  match argTypeP step1.2 with
  | none => none
  | some tres =>
    let step2 : Option ArgType × List Char :=
      match tres with
      | some (t, rest) => (some t, rest)
      | none => (none, step1.2)
    some (DocTag.arg
      { name := String.mk name
        optional := step1.1.getD false
        varArg := varArg
        argType := step2.1.getD ArgType.unknown
        description := noneIfEmpty (space0C step2.2) })

/-- `opt(delimited(char quote, anychar, char quote))` in `opt_details`:
a short flag is consumed only when a single character sits between two
single quotes; otherwise nothing is consumed. -/
def shortQuote (i0 : List Char) : Option Char × List Char :=
  match i0 with
  | q1 :: c :: q2 :: rest =>
    if q1 = '\'' ∧ q2 = '\'' then (some c, rest) else (none, i0)
  | _ => (none, i0)

/-- The `CommandOption` built by `opt_details` in builder.rs: complete
`space0`, `opt(delimited(char quote, anychar, char quote))`,
`padded_bool_default_false`, then complete `space0` and `rest`. -/
def optDetailsOpt (name : List Char) (input : List Char) : CommandOption :=
  let i0 := space0C input
  let step1 : Option Char × List Char := shortQuote i0
  let step2 : Bool × List Char :=
    match paddedBool step1.2 with
    | some (b, rest) => (b, rest)
    | none => (false, step1.2)
  { name := String.mk name
    short := step1.1
    hasParam := step2.1
    description := noneIfEmpty (space0C step2.2) }

/-! ## Tag parsers (scanner level) -/

/-- `ignore_tag` in builder.rs. -/
def ignoreTagP (input : List Char) : Option (Option DocTag × List Char) :=
  (notLineEndingS input).map (fun p => (some DocTag.ignore, p.2))

/-- `name_tag` in builder.rs. -/
def nameTagP (input : List Char) : Option (Option DocTag × List Char) :=
  match multispace0S input with
  | none => none
  | some i1 =>
    match identifierS i1 with
    | none => none
    | some (n, i2) =>
      (notLineEndingS i2).map (fun p => (some (DocTag.name (String.mk n)), p.2))

/-- `sub_tag` in builder.rs (the reserved path is always `none`). -/
def subTagP (input : List Char) : Option (Option DocTag × List Char) :=
  match multispace0S input with
  | none => none
  | some i1 =>
    match identifierS i1 with
    | none => none
    | some (n, i2) =>
      (notLineEndingS i2).map (fun p => (some (DocTag.sub (String.mk n) none), p.2))

/-- `about_tag` in builder.rs: `padded(not_line_ending)` with streaming
`space0`. -/
def aboutTagP (input : List Char) : Option (Option DocTag × List Char) :=
  match space0S input with
  | none => none
  | some i1 =>
    (notLineEndingS i1).map (fun p => (some (DocTag.about (String.mk p.1)), p.2))

/-- `arg_var_arg` in builder.rs: `preceded(multispace0, pair(identifier,
padded(not_line_ending)))`, then `arg_details` on the extracted line
remainder; a failed inner parse yields no tag but outer success. -/
def argVarArgP (varArg : Bool) (input : List Char) : Option (Option DocTag × List Char) :=
  match multispace0S input with
  | none => none
  | some i1 =>
    match identifierS i1 with
    | none => none
    | some (n, i2) =>
      match space0S i2 with
      | none => none
      | some i3 =>
        match notLineEndingS i3 with
        | none => none
        | some (details, i4) => some (argDetails n varArg details, i4)

/-- `opt_tag` in builder.rs; `opt_details` always succeeds. -/
def optTagP (input : List Char) : Option (Option DocTag × List Char) :=
  match multispace0S input with
  | none => none
  | some i1 =>
    match identifierS i1 with
    | none => none
    | some (n, i2) =>
      match space0S i2 with
      | none => none
      | some i3 =>
        match notLineEndingS i3 with
        | none => none
        | some (details, i4) => some (some (DocTag.opt (optDetailsOpt n details)), i4)

/-- `unknown_tag` in builder.rs. -/
def unknownTagP (input : List Char) : Option (Option DocTag × List Char) :=
  (notLineEndingS input).map (fun p => ((none : Option DocTag), p.2))

/-- `doc_tag` in builder.rs: `flat_map(identifier, parser_for_tag)` with
the static keyword dispatch of `parser_for_tag`. -/
def docTagP (input : List Char) : Option (Option DocTag × List Char) :=
  match identifierS input with
  | none => none
  | some (kw, rest) =>
    let s := String.mk kw
    if s = "ignore" then ignoreTagP rest
    else if s = "name" then nameTagP rest
    else if s = "sub" then subTagP rest
    else if s = "about" then aboutTagP rest
    else if s = "arg" then argVarArgP false rest
    else if s = "vararg" then argVarArgP true rest
    else if s = "opt" then optTagP rest
    else unknownTagP rest

/-- `doc_tag_or_not` in builder.rs: streaming `multispace0`, one `anychar`;
`@` dispatches to `doc_tag`, anything else to `unknown_tag`. -/
def docTagOrNotP (input : List Char) : Option (Option DocTag × List Char) :=
  match multispace0S input with
  | none => none
  | some [] => none
  | some (c :: rest) => if c = '@' then docTagP rest else unknownTagP rest

/-- `comment_or_not` in builder.rs: streaming `multispace0`, one `anychar`;
`#` dispatches to `doc_tag_or_not`, anything else to `unknown_tag`. -/
def commentOrNotP (input : List Char) : Option (Option DocTag × List Char) :=
  match multispace0S input with
  | none => none
  | some [] => none
  | some (c :: rest) => if c = '#' then docTagOrNotP rest else unknownTagP rest

/-! ## The scanner iteration (nom `iterator` + `filter_map` in `collect`)

Every successful `commentOrNotP` step consumes at least the one `anychar`
character, so `input.length + 1` steps of fuel always exhaust the
iteration; the fuel value is a termination device only. -/

/-- One pass of `iterator(input, comment_or_not)` combined with the
`filter_map(|a| a)`: collect the produced tags until the parser fails. -/
def scanAux : Nat → List Char → List DocTag
  | 0, _ => []
  | fuel + 1, input =>
    match commentOrNotP input with
    | none => []
    | some (some t, rest) => t :: scanAux fuel rest
    | some (none, rest) => scanAux fuel rest

/-- The ordered tag stream recognized in `input`. -/
def scanTags (input : List Char) : List DocTag :=
  scanAux (input.length + 1) input

/-! ## Group collection (`collect` in builder.rs) -/

/-- Whether a tag is a `Sub` tag. -/
def isSubTag : DocTag → Bool
  | DocTag.sub _ _ => true
  | _ => false

/-- One step of the fold in `collect`: a `Sub` tag pushes a new group
holding only that tag, any other tag is appended to the last group.
(`last_mut().unwrap()` in the source never sees an empty list because the
fold starts from one group; `getD` makes the Lean function total.) -/
def groupStep (groups : List (List DocTag)) (tag : DocTag) : List (List DocTag) :=
  if isSubTag tag then groups ++ [[tag]]
  else groups.dropLast ++ [(groups.getLast?.getD []) ++ [tag]]

/-- The fold of `collect` over an already-scanned tag stream, starting
with one empty group. -/
def collectGroups (tags : List DocTag) : List (List DocTag) :=
  tags.foldl groupStep [[]]

/-- `collect` in builder.rs: scan, then group.  (As analysed in the header
comment, the Rust `collect` always returns `Ok`: the iterator state after
a stop is `Done` or `Incomplete`, and `finish_with_val` maps both to
`Ok(groups)`; a `Failure` would need a `cut`, which the grammar has
nowhere.) -/
def collect (input : List Char) : List (List DocTag) :=
  collectGroups (scanTags input)

/-! ## Default name (`utils.rs` and `default_name`) -/

/-- `strip_file_suffix` in utils.rs: replace the leftmost match of the
regex `.[^.]*$` by the empty string.  A match starting at char position
`s` needs any char other than a newline at `s` (the regex `.` does not
match `\n`) followed by dot-free text reaching the end of the name; the
replacement of such a match to end-of-input leaves `name.take s`. -/
def stripFileSuffix (name : String) : String :=
  let cs := name.data
  match (List.range cs.length).find?
      (fun s => cs.get? s ≠ some '\n' && !(cs.drop (s + 1)).contains '.') with
  | some s => String.mk (cs.take s)
  | none => name

/-- The newline normalization at the top of `build_script_command`. -/
def ensureNewline (content : List Char) : List Char :=
  if content.getLast? = some '\n' then content else content ++ ['\n']

/-! ## Assembly (`build_script_command` in builder.rs) -/

/-- Accumulator of the root-group `for_each` in `build_script_command`. -/
structure MainAcc where
  opts : List CommandOption
  args : List CommandArg
  description : Option String
  name : Option String
deriving DecidableEq, Repr

/-- One step of the root-group `for_each`. -/
def mainStep (acc : MainAcc) : DocTag → MainAcc
  | DocTag.arg a => { acc with args := acc.args ++ [a] }
  | DocTag.opt o => { acc with opts := acc.opts ++ [o] }
  | DocTag.about t => { acc with description := some t }
  | DocTag.name n => { acc with name := some n }
  | _ => acc

/-- Accumulator of the per-sub-group `for_each` (no `Name` handling). -/
structure SubAcc where
  opts : List CommandOption
  args : List CommandArg
  description : Option String
deriving DecidableEq, Repr

/-- One step of the per-sub-group `for_each`. -/
def subStep (acc : SubAcc) : DocTag → SubAcc
  | DocTag.arg a => { acc with args := acc.args ++ [a] }
  | DocTag.opt o => { acc with opts := acc.opts ++ [o] }
  | DocTag.about t => { acc with description := some t }
  | _ => acc

/-- The `EmbeddedCommand` built from one sub group (total: a group not
starting with a `Sub` tag yields a junk value never used, because
`subGroup` errors first on such a group). -/
def embeddedOfGroup (g : List DocTag) : EmbeddedCommand :=
  match g with
  | DocTag.sub n _ :: rest =>
    let acc := rest.foldl subStep ⟨[], [], none⟩
    ⟨n, acc.description, acc.opts, acc.args⟩
  | _ => ⟨"", none, [], []⟩

/-- The per-group closure inside `build_script_command`: the group must
begin with a `Sub` tag, otherwise the textual error is produced. -/
def subGroup (g : List DocTag) : Except String EmbeddedCommand :=
  match g with
  | DocTag.sub _ _ :: _ => Except.ok (embeddedOfGroup g)
  | _ => Except.error "No sub tag found"

/-- The result fold over sub groups in `build_script_command`: first
error wins, otherwise the commands accumulate in order. -/
def collectSubs (gs : List (List DocTag)) : Except String (List EmbeddedCommand) :=
  gs.foldl
    (fun acc g =>
      match acc with
      | Except.error e => Except.error e
      | Except.ok v =>
        match subGroup g with
        | Except.ok c => Except.ok (v ++ [c])
        | Except.error e => Except.error e)
    (Except.ok [])

/-- The third branch of `build_script_command`: group 0 gives the root
fields, the remaining groups the sub-commands. -/
def assembleTagged (path fileName : String) (groups : List (List DocTag)) :
    Except String (Option ScriptCommand) :=
  let mainTags := groups.headD []
  let acc := mainTags.foldl mainStep ⟨[], [], none, none⟩
  match collectSubs groups.tail with
  | Except.error e => Except.error e
  | Except.ok subs =>
    Except.ok (some
      { name := acc.name.getD (stripFileSuffix fileName)
        description := acc.description
        path := path
        options := acc.opts
        args := acc.args
        subCommands := subs })

/-- The synthetic catch-all argument of an untagged script. -/
def syntheticArg : CommandArg :=
  { name := "args"
    optional := true
    varArg := true
    argType := ArgType.unknown
    description := some "Any arguments are passed to the script" }

/-- `build_script_command` in builder.rs, after the file read: `path` is
the full path stored in the command, `fileName` the path's final component
(extracted by `default_name` via `file_name()`), `content` the file text.
-/
def buildScriptCommand (path fileName : String) (content : List Char) :
    Except String (Option ScriptCommand) :=
  let text := ensureNewline content
  let groups := collect text
  if groups.length = 0 ∨ (groups.length = 1 ∧ (groups.headD []).length = 0) then
    Except.ok (some
      { name := stripFileSuffix fileName
        description := none
        path := path
        options := []
        args := [syntheticArg]
        subCommands := [] })
  else if 0 < (groups.headD []).length ∧
      (groups.headD []).headD DocTag.ignore = DocTag.ignore then
    Except.ok none
  else
    assembleTagged path fileName groups

/-! ## Spec-side helper functions -/

/-- The `CommandArg` carried by an `Arg` tag. -/
def argOf : DocTag → Option CommandArg
  | DocTag.arg a => some a
  | _ => none

/-- The `CommandOption` carried by an `Opt` tag. -/
def optOf : DocTag → Option CommandOption
  | DocTag.opt o => some o
  | _ => none

/-- The text carried by an `About` tag. -/
def aboutOf : DocTag → Option String
  | DocTag.about t => some t
  | _ => none

/-- The name carried by a `Name` tag. -/
def nameOf : DocTag → Option String
  | DocTag.name n => some n
  | _ => none

/-- The name carried by a `Sub` tag. -/
def subNameOf : DocTag → Option String
  | DocTag.sub n _ => some n
  | _ => none

/-- Left-biased choice on options ("the last write wins" combinator for
right folds expressed over `getLast?`). -/
def someOr {α : Type} : Option α → Option α → Option α
  | some v, _ => some v
  | none, y => y

/-- Structural-recursive form of the group fold, used to reason about
`collectGroups`: `cur` is the group currently being built. -/
def groupRec (cur : List DocTag) : List DocTag → List (List DocTag)
  | [] => [cur]
  | t :: ts => if isSubTag t then cur :: groupRec [t] ts else groupRec (cur ++ [t]) ts

/-! ## Lemmas about the group collector -/

theorem foldl_groupStep_eq (tags : List DocTag) :
    ∀ (gs : List (List DocTag)) (cur : List DocTag),
      tags.foldl groupStep (gs ++ [cur]) = gs ++ groupRec cur tags := by
  induction tags with
  | nil => intro gs cur; simp [groupRec]
  | cons t ts ih =>
    intro gs cur
    rw [List.foldl_cons]
    by_cases h : isSubTag t = true
    · have hstep : groupStep (gs ++ [cur]) t = (gs ++ [cur]) ++ [[t]] := by
        simp [groupStep, h]
      rw [hstep, ih (gs ++ [cur]) [t], groupRec]
      simp [h]
    · have hstep : groupStep (gs ++ [cur]) t = gs ++ [cur ++ [t]] := by
        simp [groupStep, h, List.dropLast_concat, List.getLast?_concat]
      rw [hstep, ih gs (cur ++ [t]), groupRec]
      simp [h]

theorem collectGroups_eq (tags : List DocTag) :
    collectGroups tags = groupRec [] tags := by
  have h := foldl_groupStep_eq tags [] []
  simpa [collectGroups] using h

theorem groupRec_length (tags : List DocTag) :
    ∀ cur, (groupRec cur tags).length = 1 + tags.countP (fun t => isSubTag t) := by
  induction tags with
  | nil => intro cur; simp [groupRec]
  | cons t ts ih =>
    intro cur
    rw [groupRec, List.countP_cons]
    by_cases h : isSubTag t = true
    · simp [h, ih]; omega
    · simp [h, ih]

theorem groupRec_head (tags : List DocTag) :
    ∀ cur, (groupRec cur tags).head? =
      some (cur ++ tags.takeWhile (fun t => !isSubTag t)) := by
  induction tags with
  | nil => intro cur; simp [groupRec]
  | cons t ts ih =>
    intro cur
    rw [groupRec, List.takeWhile_cons]
    by_cases h : isSubTag t = true
    · simp [h]
    · simp [h, ih]

/-- The shape of every group after the first: it starts with one `Sub` tag
and holds no further `Sub` tag. -/
def StartsSub (g : List DocTag) : Prop :=
  ∃ n p r, g = DocTag.sub n p :: r ∧ r.countP (fun t => isSubTag t) = 0

theorem startsSub_append (g : List DocTag) (t : DocTag) (hg : StartsSub g)
    (ht : isSubTag t = false) : StartsSub (g ++ [t]) := by
  obtain ⟨n, p, r, rfl, hr⟩ := hg
  refine ⟨n, p, r ++ [t], by simp, ?_⟩
  rw [List.countP_append, hr, List.countP_cons]
  simp [ht]

theorem groupRec_mem_prop (tags : List DocTag) :
    ∀ cur, StartsSub cur → ∀ g ∈ groupRec cur tags, StartsSub g := by
  induction tags with
  | nil => intro cur hcur g hg; rw [groupRec] at hg; simp at hg; simpa [hg] using hcur
  | cons t ts ih =>
    intro cur hcur g hg
    rw [groupRec] at hg
    by_cases h : isSubTag t = true
    · rw [if_pos h] at hg
      rcases List.mem_cons.mp hg with rfl | hmem
      · exact hcur
      · have hsub : StartsSub [t] := by
          cases t with
          | sub n p => exact ⟨n, p, [], rfl, rfl⟩
          | ignore => simp [isSubTag] at h
          | name _ => simp [isSubTag] at h
          | about _ => simp [isSubTag] at h
          | arg _ => simp [isSubTag] at h
          | opt _ => simp [isSubTag] at h
        exact ih [t] hsub g hmem
    · rw [if_neg h] at hg
      exact ih (cur ++ [t]) (startsSub_append cur t hcur (by simpa using h)) g hg

theorem groupRec_tail_prop (tags : List DocTag) :
    ∀ cur, ∀ g ∈ (groupRec cur tags).tail, StartsSub g := by
  induction tags with
  | nil => intro cur g hg; rw [groupRec] at hg; simp at hg
  | cons t ts ih =>
    intro cur g hg
    rw [groupRec] at hg
    by_cases h : isSubTag t = true
    · rw [if_pos h] at hg
      simp only [List.tail_cons] at hg
      have hsub : StartsSub [t] := by
        cases t with
        | sub n p => exact ⟨n, p, [], rfl, rfl⟩
        | ignore => simp [isSubTag] at h
        | name _ => simp [isSubTag] at h
        | about _ => simp [isSubTag] at h
        | arg _ => simp [isSubTag] at h
        | opt _ => simp [isSubTag] at h
      exact groupRec_mem_prop ts [t] hsub g hg
    · rw [if_neg h] at hg
      exact ih (cur ++ [t]) g hg

theorem groupRec_ne_nil (tags : List DocTag) (cur : List DocTag) :
    groupRec cur tags ≠ [] := by
  intro h
  have := groupRec_length tags cur
  rw [h] at this
  simp at this
  omega

/-! ## Lemmas about the assembly folds -/

theorem someOr_none {α : Type} (x : Option α) : someOr x none = x := by
  cases x <;> rfl

theorem someOr_some_left {α : Type} (a : α) (y : Option α) :
    someOr (some a) y = some a := rfl

theorem someOr_none_left {α : Type} (y : Option α) : someOr none y = y := rfl

theorem someOr_assoc {α : Type} (x y z : Option α) :
    someOr (someOr x y) z = someOr x (someOr y z) := by
  cases x <;> cases y <;> rfl

theorem getLast?_cons_eq {α : Type} (a : α) (l : List α) :
    (a :: l).getLast? = someOr l.getLast? (some a) := by
  induction l generalizing a with
  | nil => rfl
  | cons b bs ih =>
    rw [List.getLast?_cons_cons, ih b]
    cases h : bs.getLast? <;> rfl

theorem foldl_mainStep (l : List DocTag) :
    ∀ acc : MainAcc,
      l.foldl mainStep acc =
        ⟨acc.opts ++ l.filterMap optOf,
         acc.args ++ l.filterMap argOf,
         someOr (l.filterMap aboutOf).getLast? acc.description,
         someOr (l.filterMap nameOf).getLast? acc.name⟩ := by
  induction l with
  | nil => intro acc; simp [someOr_none_left]
  | cons t ts ih =>
    intro acc
    rw [List.foldl_cons, ih (mainStep acc t)]
    cases t with
    | ignore => simp [mainStep, optOf, argOf, aboutOf, nameOf]
    | name n =>
      simp [mainStep, optOf, argOf, aboutOf, nameOf, getLast?_cons_eq, someOr_assoc,
        someOr_some_left]
    | sub n p => simp [mainStep, optOf, argOf, aboutOf, nameOf]
    | about s =>
      simp [mainStep, optOf, argOf, aboutOf, nameOf, getLast?_cons_eq, someOr_assoc,
        someOr_some_left]
    | arg a => simp [mainStep, optOf, argOf, aboutOf, nameOf]
    | opt o => simp [mainStep, optOf, argOf, aboutOf, nameOf]

theorem foldl_subStep (l : List DocTag) :
    ∀ acc : SubAcc,
      l.foldl subStep acc =
        ⟨acc.opts ++ l.filterMap optOf,
         acc.args ++ l.filterMap argOf,
         someOr (l.filterMap aboutOf).getLast? acc.description⟩ := by
  induction l with
  | nil => intro acc; simp [someOr_none_left]
  | cons t ts ih =>
    intro acc
    rw [List.foldl_cons, ih (subStep acc t)]
    cases t with
    | ignore => simp [subStep, optOf, argOf, aboutOf]
    | name n => simp [subStep, optOf, argOf, aboutOf]
    | sub n p => simp [subStep, optOf, argOf, aboutOf]
    | about s =>
      simp [subStep, optOf, argOf, aboutOf, getLast?_cons_eq, someOr_assoc,
        someOr_some_left]
    | arg a => simp [subStep, optOf, argOf, aboutOf]
    | opt o => simp [subStep, optOf, argOf, aboutOf]

theorem embeddedOfGroup_sub (n : String) (p : Option String) (r : List DocTag) :
    embeddedOfGroup (DocTag.sub n p :: r) =
      ⟨n, (r.filterMap aboutOf).getLast?, r.filterMap optOf, r.filterMap argOf⟩ := by
  rw [embeddedOfGroup]
  simp [foldl_subStep, someOr_none]

theorem collectSubs_ok_aux (gs : List (List DocTag)) :
    ∀ v, (∀ g ∈ gs, StartsSub g) →
      gs.foldl
        (fun acc g =>
          match acc with
          | Except.error e => Except.error e
          | Except.ok v =>
            match subGroup g with
            | Except.ok c => Except.ok (v ++ [c])
            | Except.error e => Except.error e)
        (Except.ok v) = Except.ok (v ++ gs.map embeddedOfGroup) := by
  induction gs with
  | nil => intro v _; simp
  | cons g gs' ih =>
    intro v h
    obtain ⟨n, p, r, rfl, _⟩ := h g (List.mem_cons_self g gs')
    rw [List.foldl_cons]
    have hsg : subGroup (DocTag.sub n p :: r) =
        Except.ok (embeddedOfGroup (DocTag.sub n p :: r)) := rfl
    simp only [hsg]
    rw [ih (v ++ [embeddedOfGroup (DocTag.sub n p :: r)])
      (fun g hg => h g (List.mem_cons_of_mem _ hg))]
    simp

theorem collectSubs_ok (gs : List (List DocTag)) (h : ∀ g ∈ gs, StartsSub g) :
    collectSubs gs = Except.ok (gs.map embeddedOfGroup) := by
  have := collectSubs_ok_aux gs [] h
  simpa [collectSubs] using this

theorem groupRec_tail_map_name (tags : List DocTag) :
    ∀ cur, ((groupRec cur tags).tail).map (fun g => (embeddedOfGroup g).name) =
      tags.filterMap subNameOf := by
  induction tags with
  | nil => intro cur; rw [groupRec]; simp
  | cons t ts ih =>
    intro cur
    rw [groupRec]
    by_cases h : isSubTag t = true
    · rw [if_pos h]
      simp only [List.tail_cons]
      cases t with
      | sub n p =>
        rcases hrec : groupRec [DocTag.sub n p] ts with _ | ⟨g0, gt⟩
        · exact absurd hrec (groupRec_ne_nil ts _)
        · have hhd := groupRec_head ts [DocTag.sub n p]
          rw [hrec] at hhd
          simp only [List.head?_cons, Option.some_inj] at hhd
          have htl := ih [DocTag.sub n p]
          rw [hrec] at htl
          simp only [List.tail_cons] at htl
          rw [List.map_cons, htl, hhd]
          simp [embeddedOfGroup_sub, subNameOf]
      | ignore => simp [isSubTag] at h
      | name _ => simp [isSubTag] at h
      | about _ => simp [isSubTag] at h
      | arg _ => simp [isSubTag] at h
      | opt _ => simp [isSubTag] at h
    · rw [if_neg h]
      rw [ih (cur ++ [t])]
      cases t with
      | sub n p => simp [isSubTag] at h
      | ignore => simp [subNameOf]
      | name _ => simp [subNameOf]
      | about _ => simp [subNameOf]
      | arg _ => simp [subNameOf]
      | opt _ => simp [subNameOf]

/-! ## Single-line payloads: no recognized tag carries a line ending -/

/-- A string with neither a line feed nor a carriage return. -/
def stringOneLine (s : String) : Bool :=
  !s.data.contains '\n' && !s.data.contains '\r'

/-- An optional string that is absent or single-line. -/
def optOneLine : Option String → Bool
  | some d => stringOneLine d
  | none => true

/-- Every text payload of a tag is single-line. -/
def tagSingleLine : DocTag → Bool
  | DocTag.ignore => true
  | DocTag.name n => stringOneLine n
  | DocTag.sub n p => stringOneLine n && optOneLine p
  | DocTag.about t => stringOneLine t
  | DocTag.arg a => stringOneLine a.name && optOneLine a.description
  | DocTag.opt o => stringOneLine o.name && optOneLine o.description

theorem contains_eq_false_of_forall {l : List Char} {a : Char}
    (h : ∀ c ∈ l, c ≠ a) : l.contains a = false := by
  simp only [List.contains, List.elem_eq_mem, decide_eq_false_iff_not]
  intro hmem
  exact h a hmem rfl

theorem stringOneLine_of_forall {l : List Char}
    (h : ∀ c ∈ l, c ≠ '\n' ∧ c ≠ '\r') : stringOneLine (String.mk l) = true := by
  have h1 : l.contains '\n' = false :=
    contains_eq_false_of_forall (fun c hc => (h c hc).1)
  have h2 : l.contains '\r' = false :=
    contains_eq_false_of_forall (fun c hc => (h c hc).2)
  show (!(String.mk l).data.contains '\n' && !(String.mk l).data.contains '\r') = true
  rw [show (String.mk l).data = l from rfl, h1, h2]
  rfl

theorem notLineEndingS_no_eol {input out rest : List Char}
    (h : notLineEndingS input = some (out, rest)) :
    ∀ c ∈ out, c ≠ '\n' ∧ c ≠ '\r' := by
  induction input generalizing out rest with
  | nil => simp [notLineEndingS] at h
  | cons c cs ih =>
    rw [notLineEndingS] at h
    by_cases hn : c = '\n'
    · rw [if_pos hn] at h
      simp only [Option.some.injEq, Prod.mk.injEq] at h
      obtain ⟨h1, _⟩ := h
      subst h1
      intro x hx
      simp at hx
    · rw [if_neg hn] at h
      by_cases hr : c = '\r'
      · rw [if_pos hr] at h
        by_cases hd : cs.head? = some '\n'
        · rw [if_pos hd] at h
          simp only [Option.some.injEq, Prod.mk.injEq] at h
          obtain ⟨h1, _⟩ := h
          subst h1
          intro x hx
          simp at hx
        · rw [if_neg hd] at h
          simp at h
      · rw [if_neg hr] at h
        rcases ho : notLineEndingS cs with _ | ⟨o', r'⟩
        · rw [ho] at h; simp at h
        · rw [ho] at h
          simp only [Option.map_some', Option.some.injEq, Prod.mk.injEq] at h
          obtain ⟨h1, _⟩ := h
          subst h1
          intro x hx
          rcases List.mem_cons.mp hx with rfl | hmem
          · exact ⟨hn, hr⟩
          · exact ih ho x hmem

theorem isNotStreaming_stop {stop : Char → Bool} {input out rest : List Char}
    (h : isNotStreaming stop input = some (out, rest)) :
    ∀ c ∈ out, stop c = false := by
  induction input generalizing out rest with
  | nil => simp [isNotStreaming] at h
  | cons c cs ih =>
    rw [isNotStreaming] at h
    by_cases hc : stop c = true
    · rw [if_pos hc] at h
      simp only [Option.some.injEq, Prod.mk.injEq] at h
      obtain ⟨h1, _⟩ := h
      subst h1
      intro x hx
      simp at hx
    · rw [if_neg hc] at h
      rcases ho : isNotStreaming stop cs with _ | ⟨o', r'⟩
      · rw [ho] at h; simp at h
      · rw [ho] at h
        simp only [Option.map_some', Option.some.injEq, Prod.mk.injEq] at h
        obtain ⟨h1, _⟩ := h
        subst h1
        intro x hx
        rcases List.mem_cons.mp hx with rfl | hmem
        · simpa using hc
        · exact ih ho x hmem

theorem identifierS_stop {input out rest : List Char}
    (h : identifierS input = some (out, rest)) :
    ∀ c ∈ out, isIdentStop c = false := by
  rw [identifierS] at h
  split at h
  · simp at h
  · rename_i o' r' ho
    by_cases he : o'.isEmpty = true
    · rw [if_pos he] at h; simp at h
    · rw [if_neg he] at h
      simp only [Option.some.injEq, Prod.mk.injEq] at h
      obtain ⟨h1, _⟩ := h
      subst h1
      exact isNotStreaming_stop ho

theorem identStop_ne_eol {c : Char} (h : isIdentStop c = false) :
    c ≠ '\n' ∧ c ≠ '\r' := by
  rw [isIdentStop] at h
  simp only [Bool.or_eq_false_iff, decide_eq_false_iff_not] at h
  tauto

/-! ## Suffix lemmas: descriptions are substrings of the scanned line -/

theorem space0C_suffix (input : List Char) : space0C input <:+ input :=
  List.dropWhile_suffix isSpaceTab

theorem tagNoCase_suffix {t input rest : List Char}
    (h : tagNoCase t input = some rest) : rest <:+ input := by
  induction t generalizing input with
  | nil =>
    rw [tagNoCase] at h
    simp at h
    simp [h]
  | cons a ts ih =>
    rcases input with _ | ⟨b, bs⟩
    · simp [tagNoCase] at h
    · rw [tagNoCase] at h
      by_cases hab : a.toLower = b.toLower
      · rw [if_pos hab] at h
        exact (ih h).trans (List.suffix_cons b bs)
      · rw [if_neg hab] at h; simp at h

theorem paddedBool_suffix {input : List Char} {b : Bool} {rest : List Char}
    (h : paddedBool input = some (b, rest)) : rest <:+ input := by
  rw [paddedBool] at h
  rcases h1 : tagNoCase "true".data (space0C input) with _ | r1
  · rw [h1] at h
    rcases h2 : tagNoCase "false".data (space0C input) with _ | r2
    · rw [h2] at h; simp at h
    · rw [h2] at h
      simp only [Option.some.injEq, Prod.mk.injEq] at h
      obtain ⟨_, h4⟩ := h
      subst h4
      exact (tagNoCase_suffix h2).trans (space0C_suffix input)
  · rw [h1] at h
    simp only [Option.some.injEq, Prod.mk.injEq] at h
    obtain ⟨_, h4⟩ := h
    subst h4
    exact (tagNoCase_suffix h1).trans (space0C_suffix input)

theorem isNotStreaming_suffix {stop : Char → Bool} {input out rest : List Char}
    (h : isNotStreaming stop input = some (out, rest)) : rest <:+ input := by
  induction input generalizing out rest with
  | nil => simp [isNotStreaming] at h
  | cons c cs ih =>
    rw [isNotStreaming] at h
    by_cases hc : stop c = true
    · rw [if_pos hc] at h
      simp only [Option.some.injEq, Prod.mk.injEq] at h
      obtain ⟨_, h2⟩ := h
      subst h2
      exact List.suffix_refl _
    · rw [if_neg hc] at h
      rcases ho : isNotStreaming stop cs with _ | ⟨o', r'⟩
      · rw [ho] at h; simp at h
      · rw [ho] at h
        simp only [Option.map_some', Option.some.injEq, Prod.mk.injEq] at h
        obtain ⟨_, h2⟩ := h
        subst h2
        exact (ih ho).trans (List.suffix_cons c cs)

theorem argTypeP_suffix {input : List Char} {t : ArgType} {rest : List Char}
    (h : argTypeP input = some (some (t, rest))) : rest <:+ input := by
  rw [argTypeP] at h
  split at h
  · simp at h
  · rename_i c cs hsp
    by_cases hc : c = '<'
    · rw [if_pos hc] at h
      split at h
      · simp at h
      · rename_i tok rest2 hns
        by_cases he : tok.isEmpty = true
        · rw [if_pos he] at h; simp at h
        · rw [if_neg he] at h
          split at h
          · simp at h
          · rename_i d rest3
            by_cases hd : d = '>'
            · rw [if_pos hd] at h
              simp only [Option.some.injEq, Prod.mk.injEq] at h
              obtain ⟨_, h2⟩ := h
              subst h2
              have h3 : rest3 <:+ d :: rest3 := List.suffix_cons _ _
              have h4 : (d :: rest3) <:+ cs := isNotStreaming_suffix hns
              have h5 : cs <:+ c :: cs := List.suffix_cons _ _
              have h6 : (c :: cs) <:+ input := hsp ▸ space0C_suffix input
              exact ((h3.trans h4).trans h5).trans h6
            · rw [if_neg hd] at h; simp at h
    · rw [if_neg hc] at h; simp at h

theorem shortQuote_suffix (i0 : List Char) : (shortQuote i0).2 <:+ i0 := by
  rcases i0 with _ | ⟨q1, _ | ⟨c, _ | ⟨q2, rest⟩⟩⟩
  · exact List.suffix_refl _
  · exact List.suffix_refl _
  · exact List.suffix_refl _
  · show (if q1 = '\'' ∧ q2 = '\'' then ((some c : Option Char), rest)
        else ((none : Option Char), q1 :: c :: q2 :: rest)).2 <:+ q1 :: c :: q2 :: rest
    split_ifs with hq
    · exact ((List.suffix_cons q2 rest).trans
        (List.suffix_cons c (q2 :: rest))).trans (List.suffix_cons q1 (c :: q2 :: rest))
    · exact List.suffix_refl _

theorem argDetails_shape {name : List Char} {varArg : Bool} {input : List Char} {t : DocTag}
    (h : argDetails name varArg input = some t) :
    ∃ o ty ds, t = DocTag.arg ⟨String.mk name, o, varArg, ty, ds⟩ ∧
      (ds = none ∨ ∃ l, ds = some (String.mk l) ∧ l <:+ input) := by
  simp only [argDetails] at h
  split at h
  · simp at h
  · rename_i tres htp
    simp only [Option.some.injEq] at h
    subst h
    refine ⟨_, _, _, rfl, ?_⟩
    have hs1 : (match paddedBool input with
        | some (b, rest) => ((some b : Option Bool), rest)
        | none => (none, input)).2 <:+ input := by
      rcases hp : paddedBool input with _ | ⟨b, r⟩
      · simp
      · simp
        exact paddedBool_suffix hp
    have hs2 : (match tres with
        | some (ty2, rest) => ((some ty2 : Option ArgType), rest)
        | none => (none, (match paddedBool input with
            | some (b, rest) => ((some b : Option Bool), rest)
            | none => (none, input)).2)).2 <:+ input := by
      rcases tres with _ | ⟨ty2, r2⟩
      · simpa using hs1
      · simp
        exact (argTypeP_suffix htp).trans hs1
    rw [noneIfEmpty]
    split_ifs with hlen
    · exact Or.inr ⟨_, rfl, (space0C_suffix _).trans hs2⟩
    · exact Or.inl rfl

theorem optDetailsOpt_shape (name input : List Char) :
    ∃ sh hp ds, optDetailsOpt name input = ⟨String.mk name, sh, hp, ds⟩ ∧
      (ds = none ∨ ∃ l, ds = some (String.mk l) ∧ l <:+ input) := by
  simp only [optDetailsOpt]
  refine ⟨_, _, _, rfl, ?_⟩
  have hs1 : (shortQuote (space0C input)).2 <:+ input :=
    (shortQuote_suffix _).trans (space0C_suffix input)
  have hs2 : (match paddedBool (shortQuote (space0C input)).2 with
      | some (b, rest) => (b, rest)
      | none => (false, (shortQuote (space0C input)).2)).2 <:+ input := by
    rcases hp : paddedBool (shortQuote (space0C input)).2 with _ | ⟨b, r⟩
    · simpa using hs1
    · simp
      exact (paddedBool_suffix hp).trans hs1
  rw [noneIfEmpty]
  split_ifs with hlen
  · exact Or.inr ⟨_, rfl, (space0C_suffix _).trans hs2⟩
  · exact Or.inl rfl

/-! ## Every recognized tag has single-line payloads -/

theorem ignoreTagP_singleLine {input : List Char} {t : DocTag} {rest : List Char}
    (h : ignoreTagP input = some (some t, rest)) : tagSingleLine t = true := by
  rw [ignoreTagP] at h
  rcases hn : notLineEndingS input with _ | ⟨o, r⟩
  · rw [hn] at h; simp at h
  · rw [hn] at h
    simp only [Option.map_some', Option.some.injEq, Prod.mk.injEq] at h
    obtain ⟨h1, _⟩ := h
    rw [← h1]
    rfl

theorem unknownTagP_none {input : List Char} {t : DocTag} {rest : List Char}
    (h : unknownTagP input = some (some t, rest)) : False := by
  rw [unknownTagP] at h
  rcases hn : notLineEndingS input with _ | ⟨o, r⟩
  · rw [hn] at h; simp at h
  · rw [hn] at h; simp at h

theorem nameTagP_singleLine {input : List Char} {t : DocTag} {rest : List Char}
    (h : nameTagP input = some (some t, rest)) : tagSingleLine t = true := by
  rw [nameTagP] at h
  split at h
  · simp at h
  · rename_i i1 hms
    split at h
    · simp at h
    · rename_i n i2 hid
      rcases hn : notLineEndingS i2 with _ | ⟨o, r⟩
      · rw [hn] at h; simp at h
      · rw [hn] at h
        simp only [Option.map_some', Option.some.injEq, Prod.mk.injEq] at h
        obtain ⟨h1, _⟩ := h
        rw [← h1]
        show stringOneLine (String.mk n) = true
        exact stringOneLine_of_forall
          (fun c hc => identStop_ne_eol (identifierS_stop hid c hc))

theorem subTagP_singleLine {input : List Char} {t : DocTag} {rest : List Char}
    (h : subTagP input = some (some t, rest)) : tagSingleLine t = true := by
  rw [subTagP] at h
  split at h
  · simp at h
  · rename_i i1 hms
    split at h
    · simp at h
    · rename_i n i2 hid
      rcases hn : notLineEndingS i2 with _ | ⟨o, r⟩
      · rw [hn] at h; simp at h
      · rw [hn] at h
        simp only [Option.map_some', Option.some.injEq, Prod.mk.injEq] at h
        obtain ⟨h1, _⟩ := h
        rw [← h1]
        show (stringOneLine (String.mk n) && optOneLine none) = true
        have := stringOneLine_of_forall
          (fun c hc => identStop_ne_eol (identifierS_stop hid c hc))
        simp [this, optOneLine]

theorem aboutTagP_singleLine {input : List Char} {t : DocTag} {rest : List Char}
    (h : aboutTagP input = some (some t, rest)) : tagSingleLine t = true := by
  rw [aboutTagP] at h
  split at h
  · simp at h
  · rename_i i1 hsp
    rcases hn : notLineEndingS i1 with _ | ⟨o, r⟩
    · rw [hn] at h; simp at h
    · rw [hn] at h
      simp only [Option.map_some', Option.some.injEq, Prod.mk.injEq] at h
      obtain ⟨h1, _⟩ := h
      rw [← h1]
      show stringOneLine (String.mk o) = true
      exact stringOneLine_of_forall (notLineEndingS_no_eol hn)

theorem argVarArgP_singleLine {varArg : Bool} {input : List Char} {t : DocTag}
    {rest : List Char}
    (h : argVarArgP varArg input = some (some t, rest)) : tagSingleLine t = true := by
  rw [argVarArgP] at h
  split at h
  · simp at h
  · rename_i i1 hms
    split at h
    · simp at h
    · rename_i n i2 hid
      split at h
      · simp at h
      · rename_i i3 hsp
        split at h
        · simp at h
        · rename_i details i4 hnl
          simp only [Option.some.injEq, Prod.mk.injEq] at h
          obtain ⟨h1, _⟩ := h
          obtain ⟨o, ty, ds, rfl, hds⟩ := argDetails_shape h1
          have hname : stringOneLine (String.mk n) = true :=
            stringOneLine_of_forall
              (fun c hc => identStop_ne_eol (identifierS_stop hid c hc))
          rcases hds with rfl | ⟨l, rfl, hsuf⟩
          · simp [tagSingleLine, hname, optOneLine]
          · have hdet := notLineEndingS_no_eol hnl
            have hl : stringOneLine (String.mk l) = true :=
              stringOneLine_of_forall (fun c hc => hdet c (hsuf.subset hc))
            simp [tagSingleLine, hname, optOneLine, hl]

theorem optTagP_singleLine {input : List Char} {t : DocTag} {rest : List Char}
    (h : optTagP input = some (some t, rest)) : tagSingleLine t = true := by
  rw [optTagP] at h
  split at h
  · simp at h
  · rename_i i1 hms
    split at h
    · simp at h
    · rename_i n i2 hid
      split at h
      · simp at h
      · rename_i i3 hsp
        split at h
        · simp at h
        · rename_i details i4 hnl
          simp only [Option.some.injEq, Prod.mk.injEq] at h
          obtain ⟨h1, _⟩ := h
          obtain ⟨sh, hp, ds, hopt, hds⟩ := optDetailsOpt_shape n details
          rw [hopt] at h1
          rw [← h1]
          have hname : stringOneLine (String.mk n) = true :=
            stringOneLine_of_forall
              (fun c hc => identStop_ne_eol (identifierS_stop hid c hc))
          rcases hds with rfl | ⟨l, rfl, hsuf⟩
          · simp [tagSingleLine, hname, optOneLine]
          · have hdet := notLineEndingS_no_eol hnl
            have hl : stringOneLine (String.mk l) = true :=
              stringOneLine_of_forall (fun c hc => hdet c (hsuf.subset hc))
            simp [tagSingleLine, hname, optOneLine, hl]

theorem docTagP_singleLine {input : List Char} {t : DocTag} {rest : List Char}
    (h : docTagP input = some (some t, rest)) : tagSingleLine t = true := by
  rw [docTagP] at h
  split at h
  · simp at h
  · rename_i kw r hid
    by_cases h1 : String.mk kw = "ignore"
    · rw [if_pos h1] at h; exact ignoreTagP_singleLine h
    · rw [if_neg h1] at h
      by_cases h2 : String.mk kw = "name"
      · rw [if_pos h2] at h; exact nameTagP_singleLine h
      · rw [if_neg h2] at h
        by_cases h3 : String.mk kw = "sub"
        · rw [if_pos h3] at h; exact subTagP_singleLine h
        · rw [if_neg h3] at h
          by_cases h4 : String.mk kw = "about"
          · rw [if_pos h4] at h; exact aboutTagP_singleLine h
          · rw [if_neg h4] at h
            by_cases h5 : String.mk kw = "arg"
            · rw [if_pos h5] at h; exact argVarArgP_singleLine h
            · rw [if_neg h5] at h
              by_cases h6 : String.mk kw = "vararg"
              · rw [if_pos h6] at h; exact argVarArgP_singleLine h
              · rw [if_neg h6] at h
                by_cases h7 : String.mk kw = "opt"
                · rw [if_pos h7] at h; exact optTagP_singleLine h
                · rw [if_neg h7] at h
                  exact absurd h (fun hh => unknownTagP_none hh)

theorem docTagOrNotP_singleLine {input : List Char} {t : DocTag} {rest : List Char}
    (h : docTagOrNotP input = some (some t, rest)) : tagSingleLine t = true := by
  rw [docTagOrNotP] at h
  split at h
  · simp at h
  · simp at h
  · rename_i c r hms
    by_cases hc : c = '@'
    · rw [if_pos hc] at h
      exact docTagP_singleLine h
    · rw [if_neg hc] at h
      exact absurd h (fun hh => unknownTagP_none hh)

theorem commentOrNotP_singleLine {input : List Char} {t : DocTag} {rest : List Char}
    (h : commentOrNotP input = some (some t, rest)) : tagSingleLine t = true := by
  rw [commentOrNotP] at h
  split at h
  · simp at h
  · simp at h
  · rename_i c r hms
    by_cases hc : c = '#'
    · rw [if_pos hc] at h
      exact docTagOrNotP_singleLine h
    · rw [if_neg hc] at h
      exact absurd h (fun hh => unknownTagP_none hh)

theorem scanAux_singleLine :
    ∀ (fuel : Nat) (input : List Char) (t : DocTag),
      t ∈ scanAux fuel input → tagSingleLine t = true := by
  intro fuel
  induction fuel with
  | zero => intro input t ht; simp [scanAux] at ht
  | succ n ih =>
    intro input t ht
    rw [scanAux] at ht
    split at ht
    · simp at ht
    · rename_i t' rest hc
      rcases List.mem_cons.mp ht with rfl | hmem
      · exact commentOrNotP_singleLine hc
      · exact ih rest t hmem
    · rename_i rest hc
      exact ih rest t ht

theorem scanTags_singleLine {input : List Char} {t : DocTag}
    (h : t ∈ scanTags input) : tagSingleLine t = true :=
  scanAux_singleLine (input.length + 1) input t h

/-! ## The claims -/

/-- C1: for every input file text in which the scanner recognizes zero
annotation tags, `build_script_command` returns a command whose name is the
default name (file name with suffix stripped), whose description is `none`,
whose options and sub-command lists are empty, and whose arguments list is
exactly the one synthetic optional variadic "args" argument of type Unknown
with description "Any arguments are passed to the script". -/
theorem claim1_no_tags_default (path fileName : String) (content : List Char)
    (h : scanTags (ensureNewline content) = []) :
    buildScriptCommand path fileName content =
      Except.ok (some
        { name := stripFileSuffix fileName
          description := none
          path := path
          options := []
          args := [syntheticArg]
          subCommands := [] }) := by
  simp only [buildScriptCommand, collect, h, collectGroups, List.foldl_nil]
  simp

/-- Witness for C1 at the concrete untagged script text "echo hi". -/
theorem claim1_witness :
    buildScriptCommand "p" "foo.sh" ("echo hi".data) =
      Except.ok (some
        { name := stripFileSuffix "foo.sh"
          description := none
          path := "p"
          options := []
          args := [syntheticArg]
          subCommands := [] }) :=
  claim1_no_tags_default "p" "foo.sh" ("echo hi".data) (by decide)

/-- C2: for every input file text whose first recognized tag is the ignore
tag, `build_script_command` returns no command (`Ok(None)`), regardless of
any other tags or content in the file. -/
theorem claim2_ignore_excludes (path fileName : String) (content : List Char)
    (h : (scanTags (ensureNewline content)).head? = some DocTag.ignore) :
    buildScriptCommand path fileName content = Except.ok none := by
  rcases hsc : scanTags (ensureNewline content) with _ | ⟨t, ts⟩
  · rw [hsc] at h; simp at h
  · rw [hsc] at h
    simp only [List.head?_cons, Option.some.injEq] at h
    subst h
    have hcol : collect (ensureNewline content) = groupRec [DocTag.ignore] ts := by
      rw [collect, hsc, collectGroups_eq, groupRec]
      simp [isSubTag]
    rcases hrec : groupRec [DocTag.ignore] ts with _ | ⟨g0, gt⟩
    · exact absurd hrec (groupRec_ne_nil ts _)
    · have hhd := groupRec_head ts [DocTag.ignore]
      rw [hrec] at hhd
      simp only [List.head?_cons, Option.some.injEq] at hhd
      have hcol2 : collect (ensureNewline content) =
          (DocTag.ignore :: ts.takeWhile (fun x => !isSubTag x)) :: gt := by
        rw [hcol, hrec, hhd]
        simp
      simp [buildScriptCommand, hcol2]

/-- Witness for C2 at a file carrying an ignore tag and a later about tag. -/
theorem claim2_witness :
    buildScriptCommand "p" "foo.sh" ("# @ignore\n# @about x\n".data) =
      Except.ok none :=
  claim2_ignore_excludes "p" "foo.sh" ("# @ignore\n# @about x\n".data) (by decide)

/-- C3: for every ordered tag stream, the group collector is the stated
left-to-right fold, produces exactly `1 + (number of Sub tags)` groups,
group 0 holds all tags before the first Sub tag, and every subsequent group
begins with exactly one Sub tag (its head is a Sub tag and its remainder
holds no further Sub tag). -/
theorem claim3_grouping (tags : List DocTag) :
    collectGroups tags = tags.foldl groupStep [[]] ∧
    (collectGroups tags).length = 1 + tags.countP (fun t => isSubTag t) ∧
    (collectGroups tags).head? = some (tags.takeWhile (fun t => !isSubTag t)) ∧
    ∀ g ∈ (collectGroups tags).tail,
      ∃ n p r, g = DocTag.sub n p :: r ∧ r.countP (fun t => isSubTag t) = 0 := by
  refine ⟨rfl, ?_, ?_, ?_⟩
  · rw [collectGroups_eq]
    exact groupRec_length tags []
  · rw [collectGroups_eq]
    have := groupRec_head tags []
    simpa using this
  · rw [collectGroups_eq]
    intro g hg
    exact groupRec_tail_prop tags [] g hg

/-- Witness for C3's per-group clause at a concrete tag stream. -/
theorem claim3_witness :
    ∃ n p r, [DocTag.sub "s1" none, DocTag.about "x"] = DocTag.sub n p :: r ∧
      r.countP (fun t => isSubTag t) = 0 :=
  (claim3_grouping [DocTag.about "m", DocTag.sub "s1" none, DocTag.about "x"]).2.2.2
    [DocTag.sub "s1" none, DocTag.about "x"] (by decide)

/-- C8: a tag on the very last line of a file is still recognized when that
line has no trailing newline: a file whose only annotation is
`# @about The description of this file` on an unterminated final line yields
a command with that description (and the default name). -/
theorem claim8_last_line_tag :
    buildScriptCommand "foo.sh" "foo.sh"
        ("# @about The description of this file".data) =
      Except.ok (some
        { name := "foo"
          description := some "The description of this file"
          path := "foo.sh"
          options := []
          args := []
          subCommands := [] }) := by
  rfl

/-- C9: for every input text, assembly applied to the collector's output
never fails: `build_script_command` always returns `Ok`, so the
"No sub tag found" structural error branch is unreachable. -/
theorem claim9_assembly_total (path fileName : String) (content : List Char) :
    ∃ r, buildScriptCommand path fileName content = Except.ok r := by
  simp only [buildScriptCommand]
  split_ifs with h1 h2
  · exact ⟨_, rfl⟩
  · exact ⟨_, rfl⟩
  · have hsub : ∀ g ∈ (collect (ensureNewline content)).tail, StartsSub g := by
      rw [collect, collectGroups_eq]
      exact groupRec_tail_prop _ []
    simp only [assembleTagged]
    rw [collectSubs_ok _ hsub]
    exact ⟨_, rfl⟩

/-- C4 counterexample: the scanner's leading-whitespace skipping uses
`multispace0`, which also consumes newlines, so the comment introducer,
the annotation introducer, the keyword and the payload need NOT lie on one
physical line.  In `"#\n@about hi\n"` the `#` line holds no `@` at all,
yet an About tag is recognized; in `"# @name\nfoo x\n"` the Name tag's
payload `foo` is taken from the next physical line. -/
theorem claim4_counterexample :
    scanTags ("#\n@about hi\n".data) = [DocTag.about "hi"] ∧
    scanTags ("# @name\nfoo x\n".data) = [DocTag.name "foo"] := by
  exact ⟨by decide, by decide⟩

/-- C4 amended: the payload of any recognized tag ends at the line
terminator — no tag's name, about-text or description contains a line
ending — but the whitespace skipped before `#`, before `@` and before a
tag's identifier may include newlines, so those introducers may lie on
successive lines. -/
theorem claim4_payload_single_line (input : List Char) (t : DocTag)
    (h : t ∈ scanTags input) : tagSingleLine t = true :=
  scanTags_singleLine h

/-- Witness for the amended C4 at a concrete scanned tag. -/
theorem claim4_witness : tagSingleLine (DocTag.about "hi") = true :=
  claim4_payload_single_line ("# @about hi\n".data) (DocTag.about "hi") (by decide)

/-- C5 counterexample: the optional flag is consumed by a case-insensitive
PREFIX match of `true`/`false`, not a whitespace-delimited token test:
the remainder `"fooBar truely story"` — whose second token `truely` is not
the boolean literal — still parses with `optional = true` and description
`"ly story"`. -/
theorem claim5_counterexample :
    argVarArgP false ("fooBar truely story\n".data) =
      some (some (DocTag.arg
        { name := "fooBar"
          optional := true
          varArg := false
          argType := ArgType.unknown
          description := some "ly story" }), ['\n']) ∧
    eqIgnoreCase "truely".data "true".data = false ∧
    eqIgnoreCase "truely".data "false".data = false := by
  exact ⟨by decide, by decide, by decide⟩

/-- C5 amended: the two round-trips hold — `"fooBar true <file> An optional
file"` parses to the optional File argument with that description and
`"fooBar"` alone parses with all defaults (optional=false, type=Unknown,
description=None) — and the optional flag is consumed exactly by a
case-insensitive `true`/`false` PREFIX of the space-stripped remainder
(no token-boundary check), defaulting to false when no such prefix is
present. -/
theorem claim5_arg_details :
    argVarArgP false ("fooBar true <file> An optional file\n".data) =
      some (some (DocTag.arg
        { name := "fooBar"
          optional := true
          varArg := false
          argType := ArgType.file
          description := some "An optional file" }), ['\n']) ∧
    argVarArgP false ("fooBar\n".data) =
      some (some (DocTag.arg
        { name := "fooBar"
          optional := false
          varArg := false
          argType := ArgType.unknown
          description := none }), ['\n']) ∧
    (∀ rest : List Char,
      paddedBool ('t' :: 'r' :: 'u' :: 'e' :: rest) = some (true, rest)) ∧
    (∀ rest : List Char,
      paddedBool ('f' :: 'a' :: 'l' :: 's' :: 'e' :: rest) = some (false, rest)) := by
  refine ⟨by decide, by decide, fun rest => rfl, fun rest => rfl⟩

theorem shortQuote_no_quote {i0 : List Char} (h : i0.head? ≠ some '\'') :
    (shortQuote i0).1 = none := by
  rcases i0 with _ | ⟨q1, _ | ⟨c, _ | ⟨q2, rest⟩⟩⟩
  · rfl
  · rfl
  · rfl
  · show (if q1 = '\'' ∧ q2 = '\'' then ((some c : Option Char), rest)
        else ((none : Option Char), q1 :: c :: q2 :: rest)).1 = none
    have hq1 : q1 ≠ '\'' := by simpa using h
    rw [if_neg (fun hc => hq1 hc.1)]

/-- C6: the remainder `"fooBar 'e' true This param"` parses to the option
{name fooBar, short 'e', hasParameter true, description "This param"}; a
short flag is recognized only when quote-delimited — whenever the detail
remainder does not begin (after spaces) with a single quote the short flag
is `none` — and in particular `"fooBar A great option"` parses with
short=None, hasParameter=false and the full text as description. -/
theorem claim6_opt_details :
    optTagP ("fooBar 'e' true This param\n".data) =
      some (some (DocTag.opt
        { name := "fooBar"
          short := some 'e'
          hasParam := true
          description := some "This param" }), ['\n']) ∧
    optTagP ("fooBar A great option\n".data) =
      some (some (DocTag.opt
        { name := "fooBar"
          short := none
          hasParam := false
          description := some "A great option" }), ['\n']) ∧
    ∀ (name details : List Char), (space0C details).head? ≠ some '\'' →
      (optDetailsOpt name details).short = none := by
  refine ⟨by decide, by decide, ?_⟩
  intro name details hq
  exact shortQuote_no_quote hq

/-- Witness for C6's quote clause at a concrete unquoted detail remainder. -/
theorem claim6_witness :
    (optDetailsOpt ("fooBar".data) ("A great option".data)).short = none :=
  claim6_opt_details.2.2 ("fooBar".data) ("A great option".data) (by decide)

/-- C10 counterexample: the suffix-stripping regex `.[^.]*$` does not let
`.` match a newline, so a dotless name BEGINNING with a newline is not
reduced to the empty string: `"\nX"` strips to `"\n"`. -/
theorem claim10_counterexample :
    ("\nX".data.contains '.') = false ∧
    stripFileSuffix "\nX" = "\n" ∧
    stripFileSuffix "\nX" ≠ "" := by
  exact ⟨by decide, by decide, by decide⟩

/-- C10 amended: for every file name containing no `.` whose first
character is not a newline (and for names whose only `.` is the first
character, such as ".hidden"), `strip_file_suffix` removes the entire name,
so the default command name is the empty string; in particular an untagged
script named "README" is assembled as a command named `""`. -/
theorem claim10_strip_all (cs : List Char) :
    (cs.head? ≠ some '\n' → cs.contains '.' = false →
      stripFileSuffix (String.mk cs) = "") ∧
    (cs.contains '.' = false → stripFileSuffix (String.mk ('.' :: cs)) = "") ∧
    buildScriptCommand "README" "README" ("echo hi".data) =
      Except.ok (some
        { name := ""
          description := none
          path := "README"
          options := []
          args := [syntheticArg]
          subCommands := [] }) := by
  refine ⟨?_, ?_, by rfl⟩
  · intro hh hd
    simp only [stripFileSuffix]
    rcases cs with _ | ⟨c, cs'⟩
    · rfl
    · have hc : c ≠ '\n' := fun hcc => hh (by rw [hcc]; rfl)
      have hcs : cs'.contains '.' = false := by
        rw [List.contains_cons] at hd
        exact (Bool.or_eq_false_iff.mp hd).2
      have hfind : List.find?
          (fun s => decide ((c :: cs').get? s ≠ some '\n') &&
            !(List.drop (s + 1) (c :: cs')).contains '.')
          (List.range (c :: cs').length) = some 0 := by
        simp only [List.length_cons, List.range_succ_eq_map]
        exact List.find?_cons_of_pos _ (by simp [hc]; simpa using hcs)
      rw [hfind]
      rfl
  · intro hd
    simp only [stripFileSuffix]
    have hfind : List.find?
        (fun s => decide (('.' :: cs).get? s ≠ some '\n') &&
          !(List.drop (s + 1) ('.' :: cs)).contains '.')
        (List.range ('.' :: cs).length) = some 0 := by
      simp only [List.length_cons, List.range_succ_eq_map]
      exact List.find?_cons_of_pos _ (by simp; simpa using hd)
    rw [hfind]
    rfl

/-- Witness for the amended C10 at the concrete file name "README". -/
theorem claim10_witness :
    stripFileSuffix (String.mk ['R', 'E', 'A', 'D', 'M', 'E']) = "" :=
  (claim10_strip_all ['R', 'E', 'A', 'D', 'M', 'E']).1 (by decide) (by decide)

/-- C7: for any file text with at least one recognized tag whose first tag
is not the ignore tag, the assembled command preserves source order: the
root command's arguments and options are the `Arg`/`Opt` tags of group 0 in
encounter order, the last `About` tag of group 0 gives the description, the
last `Name` tag gives the name (default name when none), the sub-commands
are the groups after group 0 in order — so their names are the `Sub` tags
in encounter order — and within each sub group the last `About` wins while
arguments and options accumulate in order. -/
theorem claim7_ordering (path fileName : String) (content : List Char)
    (h1 : scanTags (ensureNewline content) ≠ [])
    (h2 : (scanTags (ensureNewline content)).head? ≠ some DocTag.ignore) :
    ∃ cmd, buildScriptCommand path fileName content = Except.ok (some cmd) ∧
      cmd.args = ((scanTags (ensureNewline content)).takeWhile
        (fun t => !isSubTag t)).filterMap argOf ∧
      cmd.options = ((scanTags (ensureNewline content)).takeWhile
        (fun t => !isSubTag t)).filterMap optOf ∧
      cmd.description = (((scanTags (ensureNewline content)).takeWhile
        (fun t => !isSubTag t)).filterMap aboutOf).getLast? ∧
      cmd.name = ((((scanTags (ensureNewline content)).takeWhile
        (fun t => !isSubTag t)).filterMap nameOf).getLast?).getD
          (stripFileSuffix fileName) ∧
      cmd.subCommands =
        ((collectGroups (scanTags (ensureNewline content))).tail).map
          embeddedOfGroup ∧
      cmd.subCommands.map EmbeddedCommand.name =
        (scanTags (ensureNewline content)).filterMap subNameOf ∧
      ∀ n p r, embeddedOfGroup (DocTag.sub n p :: r) =
        ⟨n, (r.filterMap aboutOf).getLast?, r.filterMap optOf,
          r.filterMap argOf⟩ := by
  set tags := scanTags (ensureNewline content) with htags
  have hcol : collect (ensureNewline content) = groupRec [] tags := by
    rw [collect, collectGroups_eq]
  have hlen : (groupRec [] tags).length = 1 + tags.countP (fun t => isSubTag t) :=
    groupRec_length tags []
  have hhd : (groupRec [] tags).head? =
      some (tags.takeWhile (fun t => !isSubTag t)) := by
    have := groupRec_head tags []
    simpa using this
  have hD2 : (groupRec [] tags).headD [] = tags.takeWhile (fun t => !isSubTag t) := by
    rw [List.headD_eq_head?, hhd]
    rfl
  have hc1 : ¬((groupRec [] tags).length = 0 ∨
      ((groupRec [] tags).length = 1 ∧ ((groupRec [] tags).headD []).length = 0)) := by
    rintro (hz | ⟨ho, he⟩)
    · rw [hlen] at hz; omega
    · rw [hlen] at ho
      have hcount : tags.countP (fun t => isSubTag t) = 0 := by omega
      have htw : tags.takeWhile (fun t => !isSubTag t) = tags := by
        rw [List.takeWhile_eq_self_iff]
        intro a ha
        have := List.countP_eq_zero.mp hcount a ha
        simpa using this
      rw [hD2, htw] at he
      rcases hts : tags with _ | ⟨t, ts⟩
      · exact h1 hts
      · rw [hts] at he; simp at he
  have hc2 : ¬(0 < ((groupRec [] tags).headD []).length ∧
      ((groupRec [] tags).headD []).headD DocTag.ignore = DocTag.ignore) := by
    rintro ⟨hpos, hig⟩
    rw [hD2] at hpos hig
    rcases htw : tags.takeWhile (fun t => !isSubTag t) with _ | ⟨w, ws⟩
    · rw [htw] at hpos; simp at hpos
    · rw [htw] at hig
      simp only [List.headD_cons] at hig
      have hpre : tags.takeWhile (fun t => !isSubTag t) <+: tags :=
        List.takeWhile_prefix _
      rw [htw] at hpre
      obtain ⟨suf, hsuf⟩ := hpre
      have hw : tags.head? = some w := by rw [← hsuf]; rfl
      rw [hw] at h2
      exact h2 (by rw [hig])
  have hsubs : collectSubs ((groupRec [] tags).tail) =
      Except.ok (((groupRec [] tags).tail).map embeddedOfGroup) :=
    collectSubs_ok _ (groupRec_tail_prop tags [])
  refine ⟨ScriptCommand.mk
      ((((tags.takeWhile (fun t => !isSubTag t)).filterMap nameOf).getLast?).getD
        (stripFileSuffix fileName))
      (((tags.takeWhile (fun t => !isSubTag t)).filterMap aboutOf).getLast?)
      path
      ((tags.takeWhile (fun t => !isSubTag t)).filterMap optOf)
      ((tags.takeWhile (fun t => !isSubTag t)).filterMap argOf)
      (((groupRec [] tags).tail).map embeddedOfGroup),
    ?_, rfl, rfl, rfl, rfl, ?_, ?_, ?_⟩
  · simp only [buildScriptCommand]
    rw [hcol, if_neg hc1, if_neg hc2]
    simp only [assembleTagged]
    rw [hsubs, hD2, foldl_mainStep]
    simp [someOr_none]
  · rw [collectGroups_eq]
  · rw [List.map_map]
    exact groupRec_tail_map_name tags []
  · intro n p r
    exact embeddedOfGroup_sub n p r

/-- A concrete annotated script text: a root about, arg and name, then two
sub-commands carrying an option and an argument. -/
def sampleTagged : List Char :=
  ("# @about main\n# @arg m1\n# @name Cmd\n# @sub s1\n# @opt o1 'x' true dd\n" ++
    "# @sub s2\n# @arg a1 true ee\n").data

/-- Witness for C7 at the concrete annotated script `sampleTagged`. -/
theorem claim7_witness :
    ∃ cmd, buildScriptCommand "p" "foo.sh" sampleTagged = Except.ok (some cmd) ∧
      cmd.args = ((scanTags (ensureNewline sampleTagged)).takeWhile
        (fun t => !isSubTag t)).filterMap argOf ∧
      cmd.options = ((scanTags (ensureNewline sampleTagged)).takeWhile
        (fun t => !isSubTag t)).filterMap optOf ∧
      cmd.description = (((scanTags (ensureNewline sampleTagged)).takeWhile
        (fun t => !isSubTag t)).filterMap aboutOf).getLast? ∧
      cmd.name = ((((scanTags (ensureNewline sampleTagged)).takeWhile
        (fun t => !isSubTag t)).filterMap nameOf).getLast?).getD
          (stripFileSuffix "foo.sh") ∧
      cmd.subCommands =
        ((collectGroups (scanTags (ensureNewline sampleTagged))).tail).map
          embeddedOfGroup ∧
      cmd.subCommands.map EmbeddedCommand.name =
        (scanTags (ensureNewline sampleTagged)).filterMap subNameOf ∧
      ∀ n p r, embeddedOfGroup (DocTag.sub n p :: r) =
        ⟨n, (r.filterMap aboutOf).getLast?, r.filterMap optOf,
          r.filterMap argOf⟩ :=
  claim7_ordering "p" "foo.sh" sampleTagged (by decide) (by decide)

end EasyCli
